import Mathlib

/-!
Verification of the diff alignment and virtual-line addressing engine of the
`gv` terminal diff viewer.

The development shallowly embeds the relevant parts of the source:

* `src/git/diff.rs` — the data model (`LineType`, `DiffLine`, `Hunk`, `FileDiff`);
* `src/ui/diff_view.rs` — row pairing and row counting
  (`pair_lines`, `file_line_count`, `full_line_count`, `calculate_total_lines`)
  and a row-level abstraction of the side-by-side renderers;
* `src/app.rs` — the virtual line index (`App::file_line_count`,
  `get_current_file`, `scroll_to_diff_index`), the sidebar cursor state
  machine (`move_sidebar_cursor`, `set_sidebar_cursor`,
  `ensure_sidebar_cursor_visible`) and the hidden-file filter
  (`is_hidden_file`, `update_visible_diffs`);
* `src/ui/file_tree.rs` — the file tree (`build_file_tree`, `flatten_tree`).

Strings are modelled as lists of naturals (`Chars`), one entry per character
code; for the ASCII paths and contents relevant here this coincides with
the Rust byte-wise `String` ordering and indexing.  Machine integers (`usize`,
`u32`, `i32`) are modelled as `Nat`/`Int`; the saturating operations of the
source become truncating `Nat` subtraction, which agrees with them.
-/

namespace GV

/-- Character codes of a Rust string (ASCII here), used for paths and line
content. -/
abbrev Chars := List Nat

/-- Character codes of a string literal. -/
def strOf (s : String) : Chars := s.toList.map Char.toNat

/-- The code of the path separator character. -/
def slashC : Nat := 47

/-- The code of the dot character. -/
def dotC : Nat := 46

/-! ### Data model (`src/git/diff.rs`) -/

/-- Rust `LineType` from `src/git/diff.rs`: the kind of a diff line. -/
inductive LineType where
  | Context
  | Added
  | Removed
  | Header
deriving DecidableEq, Repr

/-- Rust `DiffLine` from `src/git/diff.rs`. -/
structure DiffLine where
  line_type : LineType
  content : Chars
  old_lineno : Option Nat
  new_lineno : Option Nat
deriving DecidableEq, Repr

/-- Rust `Hunk` from `src/git/diff.rs`. -/
structure Hunk where
  old_start : Nat
  old_count : Nat
  new_start : Nat
  new_count : Nat
  header : Chars
  lines : List DiffLine
deriving DecidableEq, Repr

/-- Rust `FileDiff` from `src/git/diff.rs`. -/
structure FileDiff where
  path : Chars
  old_path : Option Chars
  old_content : Option (List Chars)
  new_content : Option (List Chars)
  added : Nat
  removed : Nat
  hunks : List Hunk
  collapsed : Bool
  is_binary : Bool
deriving DecidableEq, Repr

/-- Rust `DiffMode` from `src/ui/diff_view.rs`. -/
inductive DiffMode where
  | SideBySide
  | Unified
  | SideBySideFull
deriving DecidableEq, Repr

/-! ### Row pairing and row counting (`src/ui/diff_view.rs`) -/

/-- Function `pair_lines` from `src/ui/diff_view.rs` (lines 491–513): builds the
side-by-side rows of one hunk.  Each `Removed` line becomes a row with an
empty right column, each `Added` line a row with an empty left column, each
`Context` line a row showing the line on both sides; `Header` lines produce
no row.  (`pair_lines_with_index`, lines 522–546, produces the same row
structure, additionally carrying the running line index used only for
highlight caching.) -/
def pair_lines : List DiffLine → List (Option DiffLine × Option DiffLine)
  | [] => []
  | l :: rest =>
    match l.line_type with
    | LineType.Removed => (some l, none) :: pair_lines rest
    | LineType.Added => (none, some l) :: pair_lines rest
    | LineType.Context => (some l, some l) :: pair_lines rest
    | LineType.Header => pair_lines rest

/-- Function `full_line_count` from `src/ui/diff_view.rs` (lines 912–925): the number
of content rows of one file in full-file side-by-side mode. -/
def full_line_count (diff : FileDiff) : Nat :=
  let old_len := (diff.old_content.getD []).length
  let new_len := (diff.new_content.getD []).length
  if diff.old_content.isNone && diff.new_content.isNone then
    (diff.hunks.map (fun h => (pair_lines h.lines).length)).sum
  else if new_len ≤ old_len then
    old_len + diff.added
  else
    new_len + diff.removed

/-- Function `file_line_count` from `src/ui/diff_view.rs` (lines 889–910): the total
number of display rows of one file in a given mode. -/
def file_line_count (diff : FileDiff) (mode : DiffMode) : Nat :=
  if diff.collapsed || diff.is_binary then 1
  else
    match mode with
    | DiffMode.SideBySide | DiffMode.Unified =>
      1 + (diff.hunks.map (fun h => 1 + (pair_lines h.lines).length)).sum
    | DiffMode.SideBySideFull => 1 + full_line_count diff

/-- Function `calculate_total_lines` from `src/ui/diff_view.rs` (lines 885–887). -/
def calculate_total_lines (diffs : List FileDiff) (mode : DiffMode) : Nat :=
  (diffs.map (fun d => file_line_count d mode)).sum

/-- Sample removed lines for the C1 scenario. -/
def c1r0 : DiffLine := ⟨LineType.Removed, strOf "r0", some 1, none⟩

def c1r1 : DiffLine := ⟨LineType.Removed, strOf "r1", some 2, none⟩

def c1r2 : DiffLine := ⟨LineType.Removed, strOf "r2", some 3, none⟩

/-- Sample added line for the C1 scenario. -/
def c1a0 : DiffLine := ⟨LineType.Added, strOf "a0", none, some 1⟩

/-- The C1 scenario hunk lines: a removed-run of 3 immediately followed by an
added-run of 1, no context between. -/
def c1lines : List DiffLine := [c1r0, c1r1, c1r2, c1a0]

/-! ### Virtual line index (`src/app.rs`) -/

/-- Function `App::file_line_count` from `src/app.rs` (lines 1034–1040): the per-file
row count used by the scroll bookkeeping (`get_current_file`, `next_file`,
`prev_file`, `scroll_to_diff_index`).  It does not depend on the display
mode. -/
def app_file_line_count (diff : FileDiff) : Nat :=
  if diff.collapsed || diff.is_binary then 1
  else 1 + (diff.hunks.map (fun h => 1 + h.lines.length)).sum

/-- The scan loop of `get_current_file` from `src/app.rs` (lines 432–450),
generalized over the per-file row count and returning the index of the file
owning the scroll position: starting from accumulated row `line` and file
index `i`, return the first file whose row span contains `pos`. -/
def file_at_aux (count : FileDiff → Nat) (pos : Nat) :
    Nat → Nat → List FileDiff → Option Nat
  | _, _, [] => none
  | line, i, d :: rest =>
    if pos < line + count d then some i
    else file_at_aux count pos (line + count d) (i + 1) rest

/-- Function `get_current_file` from `src/app.rs`, abstracted to return the owning
index of the owning file in the visible list. -/
def file_at (count : FileDiff → Nat) (files : List FileDiff) (pos : Nat) :
    Option Nat :=
  file_at_aux count pos 0 0 files

/-- The prefix-sum offset computed by the loop of `scroll_to_diff_index` from
`src/app.rs` (lines 1021–1032): the sum of the per-file row counts of the
files before index `k`. -/
def scroll_offset_of (count : FileDiff → Nat) (files : List FileDiff)
    (k : Nat) : Nat :=
  ((files.take k).map count).sum

/-- A small concrete diff used by several witnesses: one hunk of one context
line and one added line, with full content present. -/
def c5diff : FileDiff :=
  { path := strOf "f"
    old_path := none
    old_content := some [strOf "a"]
    new_content := some [strOf "a", strOf "b"]
    added := 1
    removed := 0
    hunks := [⟨1, 1, 1, 2, strOf "",
      [⟨LineType.Context, strOf "a", some 1, some 1⟩,
       ⟨LineType.Added, strOf "b", none, some 2⟩]⟩]
    collapsed := false
    is_binary := false }

/-- A second concrete diff (binary) for the C2 witness list. -/
def c2bin : FileDiff :=
  { path := strOf "img.bin"
    old_path := none
    old_content := none
    new_content := none
    added := 0
    removed := 0
    hunks := []
    collapsed := false
    is_binary := true }

/-- The §3 data-model invariant that hunk lines are only `Context`, `Added`
or `Removed` (the parser in `src/git/diff.rs` skips all other line origins,
so `Header` never occurs inside `Hunk.lines`). -/
def no_header_lines (d : FileDiff) : Prop :=
  ∀ h ∈ d.hunks, ∀ l ∈ h.lines, l.line_type ≠ LineType.Header

instance (d : FileDiff) : Decidable (no_header_lines d) := by
  unfold no_header_lines
  infer_instance

/-- The concrete C3 counterexample input: full content is present, one hunk
of a single context line. -/
def c3diff : FileDiff :=
  { path := strOf "f"
    old_path := none
    old_content := some [strOf "a"]
    new_content := some [strOf "a"]
    added := 0
    removed := 0
    hunks := [⟨1, 1, 1, 1, strOf "",
      [⟨LineType.Context, strOf "a", some 1, some 1⟩]⟩]
    collapsed := false
    is_binary := false }

/-- Number of lines of a given kind in a line list. -/
def count_type (t : LineType) (ls : List DiffLine) : Nat :=
  (ls.filter (fun l => decide (l.line_type = t))).length

/-- Number of lines of a given kind over a hunk list. -/
def hunks_count (t : LineType) (hs : List Hunk) : Nat :=
  (hs.map (fun h => count_type t h.lines)).sum

/-! ### Row sequences of the side-by-side renderers (`src/ui/diff_view.rs`) -/

/-- One display row of the side-by-side renderers of `src/ui/diff_view.rs`,
abstracted to which `DiffLine` occupies each column: the file header row, a
hunk header row, a content row with optional left/right lines, and the row a
`Header` hunk line occupies in `render_side_by_side_full` (nothing is drawn
there, but the row counter still advances). -/
inductive SbsRow where
  | fileHeader
  | hunkHeader (h : Hunk)
  | pairRow (left right : Option DiffLine)
  | blankRow
deriving DecidableEq, Repr

/-- The row sequence of `render_side_by_side` (`src/ui/diff_view.rs`,
lines 110–185) for one file: file header, then per hunk a hunk header row
followed by the `pair_lines` rows.  (The renderer materializes only the rows
inside the viewport; this is the full sequence it walks.) -/
def rows_side_by_side (d : FileDiff) : List SbsRow :=
  SbsRow.fileHeader ::
    (if d.collapsed || d.is_binary then []
     else d.hunks.flatMap (fun h =>
       SbsRow.hunkHeader h ::
         (pair_lines h.lines).map (fun p => SbsRow.pairRow p.1 p.2)))

/-- One row of `render_side_by_side_full` (`src/ui/diff_view.rs`,
lines 279–430) for one hunk line when no full content is available: the
content arrays are empty, so every column falls back to the text of the hunk line
itself. -/
def full_row_of_line (l : DiffLine) : SbsRow :=
  match l.line_type with
  | LineType.Context => SbsRow.pairRow (some l) (some l)
  | LineType.Removed => SbsRow.pairRow (some l) none
  | LineType.Added => SbsRow.pairRow none (some l)
  | LineType.Header => SbsRow.blankRow

/-- The row sequence of `render_side_by_side_full` (`src/ui/diff_view.rs`,
lines 188–488) for a file with `old_content` and `new_content` both absent:
`has_full_content` is false, so no context-fill or trailing rows are
emitted; each hunk contributes exactly the rows of its lines, with no hunk header
row. -/
def rows_full_no_content (d : FileDiff) : List SbsRow :=
  SbsRow.fileHeader ::
    (if d.collapsed || d.is_binary then []
     else d.hunks.flatMap (fun h => h.lines.map full_row_of_line))

/-- The concrete C9 counterexample input: no full content, one hunk with one
context line and one added line. -/
def c9diff : FileDiff :=
  { path := strOf "f"
    old_path := none
    old_content := none
    new_content := none
    added := 1
    removed := 0
    hunks := [⟨1, 1, 1, 2, strOf "",
      [⟨LineType.Context, strOf "a", some 1, some 1⟩,
       ⟨LineType.Added, strOf "b", none, some 2⟩]⟩]
    collapsed := false
    is_binary := false }

/-! ### Lexicographic path order (Rust `String::cmp` on paths) -/

/-- Strict lexicographic order on character lists, as the Rust `str` ordering
compares paths byte by byte. -/
def lexLt : Chars → Chars → Bool
  | _, [] => false
  | [], _ :: _ => true
  | a :: as, b :: bs => decide (a < b) || (decide (a = b) && lexLt as bs)

/-- Reflexive lexicographic order: `a ≤ b` iff not `b < a`. -/
def lexLe (a b : Chars) : Bool := !(lexLt b a)

/-! ### Hidden-file classification (`src/ui/file_tree.rs`, `src/app.rs`) -/

/-- Rust `path.split('/')`: splits a character list on the slash character;
always returns at least one (possibly empty) component. -/
def splitSlash : Chars → List Chars
  | [] => [[]]
  | c :: rest =>
    match splitSlash rest with
    | [] => [[c]]
    | h :: t => if c = slashC then [] :: h :: t else (c :: h) :: t

/-- Rust `part.starts_with('.')`. -/
def starts_with_dot : Chars → Bool
  | [] => false
  | c :: _ => c == dotC

/-- Constant `HIDDEN_PATTERNS` from `src/ui/file_tree.rs` (lines 10–19) and
`src/app.rs` (lines 49–58): the eight lock-file names. -/
def HIDDEN_PATTERNS : List Chars :=
  [strOf "go.sum", strOf "package-lock.json", strOf "yarn.lock",
   strOf "pnpm-lock.yaml", strOf "Cargo.lock", strOf "Gemfile.lock",
   strOf "poetry.lock", strOf "composer.lock"]

/-- Function `is_hidden_file` from `src/ui/file_tree.rs` (lines 22–31): true when some
path component starts with a dot, or the final component equals one of the
`HIDDEN_PATTERNS`. -/
def is_hidden_file (path : Chars) : Bool :=
  if (splitSlash path).any starts_with_dot then true
  else HIDDEN_PATTERNS.any (fun p => (splitSlash path).getLastD [] == p)

/-! ### File tree (`src/ui/file_tree.rs`) -/

/-- Rust `TreeNode` from `src/ui/file_tree.rs` (lines 35–54). -/
structure TreeNode where
  name : Chars
  path : Chars
  is_folder : Bool
  depth : Nat
  added : Nat
  removed : Nat
  diff_index : Option Nat
  expanded : Bool
  is_hidden : Bool
deriving DecidableEq, Repr

/-- The sort order `|a, b| a.path.cmp(&b.path)` used by `build_file_tree`. -/
def nodeLe (a b : TreeNode) : Prop := lexLe a.path b.path = true

instance : DecidableRel nodeLe := fun a b => by
  unfold nodeLe
  infer_instance

/-- The folder paths contributed by one file path in the first pass of
`build_file_tree` (`src/ui/file_tree.rs` lines 67–81): the join of the first
`i + 1` components, for every non-terminal prefix. -/
def folder_prefixes (path : Chars) : List Chars :=
  let parts := splitSlash path
  (List.range (parts.length - 1)).map
    (fun i => List.intercalate [slashC] (parts.take (i + 1)))

/-- Rust `path.matches('/').count()`. -/
def count_slash (path : Chars) : Nat :=
  (path.filter (fun c => c == slashC)).length

/-- Lookup in the persistent collapse map:
`expanded_folders.get(&path).copied().unwrap_or(true)`. -/
def lookup_expanded (m : List (Chars × Bool)) (p : Chars) : Bool :=
  match m.find? (fun e => e.1 == p) with
  | some e => e.2
  | none => true

/-- Function `build_file_tree` from `src/ui/file_tree.rs` (lines 57–124): one file
node per diff, one folder node per distinct non-terminal path prefix (with
aggregated added/removed counts and the persisted expand flag), all sorted
by path.  The hash map of the source is modelled as a deduplicated list;
its iteration order is irrelevant because the final `sort_by` orders nodes
by path. -/
def build_file_tree (diffs : List FileDiff)
    (expanded_folders : List (Chars × Bool)) : List TreeNode :=
  if diffs.isEmpty then [] else
  let file_nodes := diffs.enum.map (fun p =>
    let parts := splitSlash p.2.path
    { name := parts.getLastD []
      path := p.2.path
      is_folder := false
      depth := parts.length - 1
      added := p.2.added
      removed := p.2.removed
      diff_index := some p.1
      expanded := false
      is_hidden := is_hidden_file p.2.path : TreeNode })
  let folder_paths := (diffs.flatMap (fun d => folder_prefixes d.path)).dedup
  let folder_nodes := folder_paths.map (fun fp =>
    { name := (splitSlash fp).getLastD []
      path := fp
      is_folder := true
      depth := count_slash fp
      added := ((diffs.filter
        (fun d => (folder_prefixes d.path).contains fp)).map
          (fun d => d.added)).sum
      removed := ((diffs.filter
        (fun d => (folder_prefixes d.path).contains fp)).map
          (fun d => d.removed)).sum
      diff_index := none
      expanded := lookup_expanded expanded_folders fp
      is_hidden := is_hidden_file fp : TreeNode })
  List.insertionSort nodeLe (folder_nodes ++ file_nodes)

/-- The suppression test of `flatten_tree` (`src/ui/file_tree.rs` lines
133–135): `node.path.starts_with(prefix) && node.path != *prefix`. -/
def strictly_under (q path : Chars) : Bool :=
  q.isPrefixOf path && !(path == q)

/-- The loop of `flatten_tree` (`src/ui/file_tree.rs` lines 127–150) with the
running list of collapsed-folder prefixes made explicit. -/
def flatten_aux : List Chars → List TreeNode → List TreeNode
  | _, [] => []
  | prefixes, n :: rest =>
    if prefixes.any (fun q => strictly_under q n.path) then
      flatten_aux prefixes rest
    else
      n :: flatten_aux
        (if n.is_folder && !n.expanded then (n.path ++ [slashC]) :: prefixes
         else prefixes)
        rest

/-- Function `flatten_tree` from `src/ui/file_tree.rs` (lines 127–150). -/
def flatten_tree (nodes : List TreeNode) : List TreeNode :=
  flatten_aux [] nodes

/-- A node is a strict descendant of a collapsed folder appearing in the
node list. -/
def hidden_by (nodes : List TreeNode) (n : TreeNode) : Bool :=
  nodes.any (fun f =>
    f.is_folder && !f.expanded && strictly_under (f.path ++ [slashC]) n.path)

/-- Relation `strict_desc child parent`: the child path extends the parent path
plus a slash. -/
def strict_desc (child parent : Chars) : Bool :=
  (parent ++ [slashC]).isPrefixOf child

/-- C6 counterexample input: two files whose paths share the leading segment
`a`. -/
def c6diffA : FileDiff :=
  { path := strOf "a/x"
    old_path := none
    old_content := none
    new_content := none
    added := 1
    removed := 0
    hunks := []
    collapsed := false
    is_binary := false }

def c6diffB : FileDiff :=
  { path := strOf "a.txt"
    old_path := none
    old_content := none
    new_content := none
    added := 0
    removed := 1
    hunks := []
    collapsed := false
    is_binary := false }

/-- C7 witness node: the folder `dir`, collapsed. -/
def c7dir : TreeNode :=
  { name := strOf "dir"
    path := strOf "dir"
    is_folder := true
    depth := 0
    added := 2
    removed := 0
    diff_index := none
    expanded := false
    is_hidden := false }

/-- C7 witness node: the folder `dir`, expanded. -/
def c7dirOpen : TreeNode :=
  { c7dir with expanded := true }

/-- C7 witness node: the file `dir/x.txt`. -/
def c7x : TreeNode :=
  { name := strOf "x.txt"
    path := strOf "dir/x.txt"
    is_folder := false
    depth := 1
    added := 1
    removed := 0
    diff_index := some 0
    expanded := false
    is_hidden := false }

/-- C7 witness node: the file `dir/y.txt`. -/
def c7y : TreeNode :=
  { name := strOf "y.txt"
    path := strOf "dir/y.txt"
    is_folder := false
    depth := 1
    added := 1
    removed := 0
    diff_index := some 1
    expanded := false
    is_hidden := false }

/-! ### Sidebar navigation state (`src/app.rs`) -/

/-- The sidebar navigation state of `App` (`src/app.rs`): `file_cursor` and
`sidebar_scroll`. -/
structure SidebarState where
  file_cursor : Nat
  sidebar_scroll : Nat
deriving DecidableEq, Repr

/-- Applying an `i32` delta to a `usize` cursor with saturating
arithmetic, as in `move_sidebar_cursor`. -/
def apply_delta (n : Nat) (delta : Int) : Nat :=
  if 0 ≤ delta then n + delta.toNat else n - (-delta).toNat

/-- Function `ensure_sidebar_cursor_visible` from `src/app.rs` (lines 914–928):
`visible` is the sidebar height, `total` the flattened tree length.  Only
the scroll is adjusted. -/
def ensure_sidebar_cursor_visible (visible total : Nat)
    (s : SidebarState) : SidebarState :=
  if visible = 0 then s
  else
    let scroll1 :=
      if s.file_cursor < s.sidebar_scroll then s.file_cursor
      else if s.sidebar_scroll + visible ≤ s.file_cursor then
        s.file_cursor + 1 - visible
      else s.sidebar_scroll
    ⟨s.file_cursor, min scroll1 (total - visible)⟩

/-- Function `move_sidebar_cursor` from `src/app.rs` (lines 878–894). -/
def move_sidebar_cursor (total visible : Nat) (delta : Int)
    (s : SidebarState) : SidebarState :=
  if total = 0 then ⟨0, 0⟩
  else
    ensure_sidebar_cursor_visible visible total
      ⟨min (apply_delta s.file_cursor delta) (total - 1), s.sidebar_scroll⟩

/-- Function `set_sidebar_cursor` from `src/app.rs` (lines 866–876). -/
def set_sidebar_cursor (total visible : Nat) (index : Nat)
    (s : SidebarState) : SidebarState :=
  if total = 0 then ⟨0, 0⟩
  else
    ensure_sidebar_cursor_visible visible total
      ⟨min index (total - 1), s.sidebar_scroll⟩

/-- Function `update_visible_diffs` from `src/app.rs` (lines 238–245): the indices of
the diffs that pass the hidden-file filter (all of them when `show_hidden`
is set). -/
def update_visible_diffs (show_hidden : Bool) (diffs : List FileDiff) :
    List Nat :=
  ((diffs.enum).filter
    (fun p => show_hidden || !(is_hidden_file p.2.path))).map (fun p => p.1)

/-- The hidden-file classification as the claim words it: some
slash-separated component starts with a dot, or the final component is
exactly one of the eight lock-file names. -/
def HiddenSpec (path : Chars) : Prop :=
  (∃ comp ∈ splitSlash path, ∃ r, comp = dotC :: r) ∨
    (splitSlash path).getLastD [] ∈ HIDDEN_PATTERNS

/-! ### Claim C1: run pairing in side-by-side hunk-only mode -/

/-- C1 counterexample: a removed-run of 3 lines immediately followed by an
added-run of 1 line does not produce `max 3 1 = 3` side-by-side rows; the
code emits one row per line (4 rows), with no row pairing a removed line
with an added line. -/
theorem c1_counterexample :
    (pair_lines c1lines).length ≠ max 3 1 ∧
    (pair_lines c1lines).get? 0 ≠ some (some c1r0, some c1a0) := by
  constructor
  · decide
  · decide

/-- C1 (amended): in side-by-side hunk-only mode a maximal run of `m` Removed
lines immediately followed by a maximal run of `n` Added lines is not paired
at all: it produces `m + n` rows, first the `m` removed lines each alone in
the left column, then the `n` added lines each alone in the right column. -/
theorem c1_unpaired_runs (rs as : List DiffLine)
    (hr : ∀ l ∈ rs, l.line_type = LineType.Removed)
    (ha : ∀ l ∈ as, l.line_type = LineType.Added) :
    pair_lines (rs ++ as) =
      rs.map (fun l => (some l, none)) ++ as.map (fun l => (none, some l)) ∧
    (pair_lines (rs ++ as)).length = rs.length + as.length := by
  have key : pair_lines (rs ++ as) =
      rs.map (fun l => (some l, none)) ++ as.map (fun l => (none, some l)) := by
    induction rs with
    | nil =>
      simp only [List.nil_append, List.map_nil]
      induction as with
      | nil => rfl
      | cons a t ih =>
        have hat : a.line_type = LineType.Added := ha a (List.mem_cons_self a t)
        have iht := ih (fun l hl => ha l (List.mem_cons_of_mem a hl))
        simp [pair_lines, hat, iht]
    | cons r t ih =>
      have hrt : r.line_type = LineType.Removed := hr r (List.mem_cons_self r t)
      have iht := ih (fun l hl => hr l (List.mem_cons_of_mem r hl))
      simp [pair_lines, hrt, iht]
  refine ⟨key, ?_⟩
  simp [key]

/-- C1 witness: the amended statement at the concrete 3-removed/1-added run:
4 rows, removed rows with blank right column, the added row with blank left
column. -/
theorem c1_witness :
    (∀ l ∈ [c1r0, c1r1, c1r2], l.line_type = LineType.Removed) ∧
    (∀ l ∈ [c1a0], l.line_type = LineType.Added) ∧
    pair_lines c1lines =
      [(some c1r0, none), (some c1r1, none), (some c1r2, none),
        (none, some c1a0)] ∧
    (pair_lines c1lines).length = 4 := by
  have h := c1_unpaired_runs [c1r0, c1r1, c1r2] [c1a0]
    (by decide) (by decide)
  refine ⟨by decide, by decide, ?_, ?_⟩
  · simpa using h.1
  · simpa using h.2

/-! ### Claim C4: unified and side-by-side hunk-only row counts agree -/

/-- C4: for every `FileDiff` the total row count in Unified mode equals the
total row count in side-by-side hunk-only mode, per file and summed over a
file list; both count the file header, one header row per hunk, and one row
per (non-header) hunk line. -/
theorem c4_unified_eq_side_by_side :
    (∀ d : FileDiff,
      file_line_count d DiffMode.Unified = file_line_count d DiffMode.SideBySide) ∧
    (∀ diffs : List FileDiff,
      calculate_total_lines diffs DiffMode.Unified =
        calculate_total_lines diffs DiffMode.SideBySide) := by
  have hd : ∀ d : FileDiff,
      file_line_count d DiffMode.Unified = file_line_count d DiffMode.SideBySide := by
    intro d
    rfl
  refine ⟨hd, ?_⟩
  intro diffs
  simp [calculate_total_lines, hd]

/-! ### Claim C2: scroll-offset/file-at round trip -/

theorem one_le_app_file_line_count (d : FileDiff) : 1 ≤ app_file_line_count d := by
  unfold app_file_line_count
  split <;> omega

theorem one_le_file_line_count (d : FileDiff) (mode : DiffMode) :
    1 ≤ file_line_count d mode := by
  unfold file_line_count
  split
  · omega
  · cases mode <;> simp

theorem file_at_aux_roundtrip (count : FileDiff → Nat)
    (hpos : ∀ d, 1 ≤ count d) :
    ∀ (files : List FileDiff) (k line i : Nat), k < files.length →
      file_at_aux count (line + ((files.take k).map count).sum) line i files =
        some (i + k) := by
  intro files
  induction files with
  | nil => intro k line i hk; simp at hk
  | cons d rest ih =>
    intro k line i hk
    cases k with
    | zero =>
      have hd := hpos d
      simp only [List.take_zero, List.map_nil, List.sum_nil, Nat.add_zero]
      unfold file_at_aux
      have hlt : line < line + count d := by omega
      simp [hlt]
    | succ k =>
      have hk2 : k < rest.length := by simpa using hk
      simp only [List.take_succ_cons, List.map_cons, List.sum_cons]
      unfold file_at_aux
      have hge : ¬ line + (count d + ((rest.take k).map count).sum) <
          line + count d := by omega
      simp only [hge, if_false]
      have := ih k (line + count d) (i + 1) hk2
      have harith : line + (count d + ((rest.take k).map count).sum) =
          line + count d + ((rest.take k).map count).sum := by omega
      rw [harith, this]
      congr 1
      omega

/-- C2: for every visible file list, every display mode, and every valid file
index `k`, scrolling to the starting offset of file `k` (the prefix sum of
per-file row counts, as computed by `scroll_to_diff_index`) and asking which
file owns that scroll position (the scan of `get_current_file`) returns `k`
again — both for the mode-independent per-file count of `App::file_line_count`
actually used by the scroll bookkeeping, and for the mode-dependent count
`file_line_count` of the row aligner. -/
theorem c2_roundtrip (files : List FileDiff) (mode : DiffMode) (k : Nat)
    (hk : k < files.length) :
    file_at app_file_line_count files
        (scroll_offset_of app_file_line_count files k) = some k ∧
    file_at (fun d => file_line_count d mode) files
        (scroll_offset_of (fun d => file_line_count d mode) files k) = some k := by
  constructor
  · have := file_at_aux_roundtrip app_file_line_count
      (fun d => one_le_app_file_line_count d) files k 0 0 hk
    simpa [file_at, scroll_offset_of] using this
  · have := file_at_aux_roundtrip (fun d => file_line_count d mode)
      (fun d => one_le_file_line_count d mode) files k 0 0 hk
    simpa [file_at, scroll_offset_of] using this

/-- C2 witness: the round trip at the concrete two-file list and index 1. -/
theorem c2_witness :
    1 < [c5diff, c2bin].length ∧
    file_at app_file_line_count [c5diff, c2bin]
        (scroll_offset_of app_file_line_count [c5diff, c2bin] 1) = some 1 ∧
    file_at (fun d => file_line_count d DiffMode.SideBySideFull) [c5diff, c2bin]
        (scroll_offset_of (fun d => file_line_count d DiffMode.SideBySideFull)
          [c5diff, c2bin] 1) = some 1 := by
  have h := c2_roundtrip [c5diff, c2bin] DiffMode.SideBySideFull 1 (by decide)
  exact ⟨by decide, h.1, h.2⟩

/-! ### Claim C3: the per-file row count used for scroll bookkeeping -/

theorem pair_lines_length_of_no_header (ls : List DiffLine)
    (h : ∀ l ∈ ls, l.line_type ≠ LineType.Header) :
    (pair_lines ls).length = ls.length := by
  induction ls with
  | nil => rfl
  | cons l t ih =>
    have hl : l.line_type ≠ LineType.Header := h l (List.mem_cons_self l t)
    have iht := ih (fun x hx => h x (List.mem_cons_of_mem l hx))
    cases hlt : l.line_type <;> simp [pair_lines, hlt, iht] at hl ⊢

theorem sum_map_one_add {α : Type} (l : List α) (f : α → Nat) :
    (l.map (fun x => 1 + f x)).sum = l.length + (l.map f).sum := by
  induction l with
  | nil => rfl
  | cons x t ih => simp [ih]; omega

/-- C3 counterexample: in full-file mode the scroll bookkeeping count
(`App::file_line_count`, which is mode-independent) is not
`1 + full_row_count(file)`: for `c3diff` the bookkeeping count is 3 while
`1 + full_row_count` is 2. -/
theorem c3_counterexample :
    app_file_line_count c3diff = 3 ∧
    file_line_count c3diff DiffMode.SideBySideFull = 1 + full_line_count c3diff ∧
    app_file_line_count c3diff ≠ file_line_count c3diff DiffMode.SideBySideFull := by
  refine ⟨by decide, by decide, by decide⟩

/-- C3 (amended): the per-file row count used by the scroll bookkeeping is
the mode-independent `1` (collapsed or binary) /
`1 + Σ over hunks of (1 + lines-in-hunk)` of `App::file_line_count`; for
hunks without `Header` lines this equals the row-aligner count
`file_line_count` in Unified and side-by-side hunk-only modes, but in
full-file mode the bookkeeping does not switch to `1 + full_row_count`. -/
theorem c3_amended (d : FileDiff) (hnh : no_header_lines d) :
    app_file_line_count d = file_line_count d DiffMode.Unified ∧
    app_file_line_count d = file_line_count d DiffMode.SideBySide := by
  have key : app_file_line_count d = file_line_count d DiffMode.SideBySide := by
    unfold app_file_line_count file_line_count
    split
    · rfl
    · have hmap : d.hunks.map (fun h => 1 + h.lines.length) =
          d.hunks.map (fun h => 1 + (pair_lines h.lines).length) := by
        apply List.map_congr_left
        intro h hh
        rw [pair_lines_length_of_no_header h.lines (hnh h hh)]
      rw [hmap]
  exact ⟨by rw [key]; rfl, key⟩

/-- C3 witness: the amended statement at the concrete `c3diff`. -/
theorem c3_witness :
    no_header_lines c3diff ∧
    (app_file_line_count c3diff = file_line_count c3diff DiffMode.Unified ∧
     app_file_line_count c3diff = file_line_count c3diff DiffMode.SideBySide) :=
  ⟨by decide, c3_amended c3diff (by decide)⟩

/-! ### Claim C5: full-file versus hunk-only row count -/

theorem pair_lines_length_eq_counts (ls : List DiffLine) :
    (pair_lines ls).length =
      count_type LineType.Context ls + count_type LineType.Added ls +
        count_type LineType.Removed ls := by
  induction ls with
  | nil => rfl
  | cons l t ih =>
    cases hlt : l.line_type <;>
      simp [pair_lines, count_type, hlt, List.filter] at ih ⊢ <;> omega

theorem sum_pair_lengths_eq_counts (hs : List Hunk) :
    (hs.map (fun h => (pair_lines h.lines).length)).sum =
      hunks_count LineType.Context hs + hunks_count LineType.Added hs +
        hunks_count LineType.Removed hs := by
  induction hs with
  | nil => rfl
  | cons h t ih =>
    simp only [List.map_cons, List.sum_cons, hunks_count] at ih ⊢
    rw [pair_lines_length_eq_counts h.lines]
    omega

/-- C5 counterexample: a file with full content present whose hunk-only
side-by-side row count (4: file header, hunk header, two line rows) exceeds
its full-file row count (3: file header, two content rows — full-file mode
emits no hunk-header row). -/
theorem c5_counterexample :
    (c5diff.old_content.isSome || c5diff.new_content.isSome) = true ∧
    c5diff.collapsed = false ∧ c5diff.is_binary = false ∧
    ¬ file_line_count c5diff DiffMode.SideBySide ≤
        file_line_count c5diff DiffMode.SideBySideFull := by
  refine ⟨by decide, by decide, by decide, by decide⟩

/-- C5 (amended): for a file whose recorded `added`/`removed` totals cover
the added/removed hunk lines and whose full contents cover the old-side and
new-side hunk lines, the full-file row count plus one row per hunk is at
least the hunk-only row count: full-file mode omits exactly the hunk-header
rows, so the unqualified inequality of the claim fails by up to the number
of hunks. -/
theorem c5_amended (d : FileDiff)
    (hcontent : d.old_content.isSome ∨ d.new_content.isSome)
    (hA : hunks_count LineType.Added d.hunks ≤ d.added)
    (hR : hunks_count LineType.Removed d.hunks ≤ d.removed)
    (hO : hunks_count LineType.Context d.hunks +
        hunks_count LineType.Removed d.hunks ≤ (d.old_content.getD []).length)
    (hN : hunks_count LineType.Context d.hunks +
        hunks_count LineType.Added d.hunks ≤ (d.new_content.getD []).length) :
    file_line_count d DiffMode.SideBySide ≤
      file_line_count d DiffMode.SideBySideFull + d.hunks.length := by
  unfold file_line_count
  split
  · omega
  · have hnone : (d.old_content.isNone && d.new_content.isNone) = false := by
      rcases hcontent with h | h <;>
        [cases ho : d.old_content; cases hn : d.new_content] <;>
        simp_all [Option.isSome, Option.isNone]
    have hfull : hunks_count LineType.Context d.hunks +
        hunks_count LineType.Added d.hunks +
        hunks_count LineType.Removed d.hunks ≤ full_line_count d := by
      unfold full_line_count
      simp only [hnone, Bool.false_eq_true, if_false]
      split <;> omega
    dsimp only
    rw [sum_map_one_add, sum_pair_lengths_eq_counts]
    omega

/-- C5 witness: the amended inequality at the concrete `c5diff`
(4 ≤ 3 + 1). -/
theorem c5_witness :
    (c5diff.old_content.isSome ∨ c5diff.new_content.isSome) ∧
    hunks_count LineType.Added c5diff.hunks ≤ c5diff.added ∧
    hunks_count LineType.Removed c5diff.hunks ≤ c5diff.removed ∧
    hunks_count LineType.Context c5diff.hunks +
        hunks_count LineType.Removed c5diff.hunks ≤
      (c5diff.old_content.getD []).length ∧
    hunks_count LineType.Context c5diff.hunks +
        hunks_count LineType.Added c5diff.hunks ≤
      (c5diff.new_content.getD []).length ∧
    file_line_count c5diff DiffMode.SideBySide ≤
      file_line_count c5diff DiffMode.SideBySideFull + c5diff.hunks.length :=
  ⟨by decide, by decide, by decide, by decide, by decide,
    c5_amended c5diff (by decide) (by decide) (by decide) (by decide) (by decide)⟩

/-! ### Claim C9: full-file mode without full content -/

/-- C9 counterexample: for a non-binary, non-collapsed file with both
contents absent, full-file side-by-side mode does not produce the same row
sequence (or row count) as hunk-only side-by-side mode: the hunk header row
is missing, so for `c9diff` full-file mode has 3 rows against 4. -/
theorem c9_counterexample :
    c9diff.old_content = none ∧ c9diff.new_content = none ∧
    c9diff.collapsed = false ∧ c9diff.is_binary = false ∧
    rows_full_no_content c9diff ≠ rows_side_by_side c9diff ∧
    file_line_count c9diff DiffMode.SideBySideFull ≠
      file_line_count c9diff DiffMode.SideBySide := by
  refine ⟨by decide, by decide, by decide, by decide, by decide, by decide⟩

theorem full_rows_eq_pair_rows (ls : List DiffLine)
    (h : ∀ l ∈ ls, l.line_type ≠ LineType.Header) :
    ls.map full_row_of_line =
      (pair_lines ls).map (fun p => SbsRow.pairRow p.1 p.2) := by
  induction ls with
  | nil => rfl
  | cons l t ih =>
    have hl : l.line_type ≠ LineType.Header := h l (List.mem_cons_self l t)
    have iht := ih (fun x hx => h x (List.mem_cons_of_mem l hx))
    cases hlt : l.line_type <;>
      simp [pair_lines, full_row_of_line, hlt, iht] at hl ⊢

/-- C9 (amended): for a non-binary, non-collapsed file with both contents
absent (and `Header`-free hunks, as the parser guarantees), full-file
side-by-side mode degrades to hunk-only pairing of the lines of each hunk — the
same `pair_lines` rows in the same order — but omits the per-hunk header
rows, so its per-file row count is the hunk-only count minus the number of
hunks; the (total) row computation never fails. -/
theorem c9_degrades_to_hunk_pairing (d : FileDiff)
    (hold : d.old_content = none) (hnew : d.new_content = none)
    (hc : d.collapsed = false) (hb : d.is_binary = false)
    (hnh : no_header_lines d) :
    rows_full_no_content d =
      SbsRow.fileHeader ::
        d.hunks.flatMap (fun h =>
          (pair_lines h.lines).map (fun p => SbsRow.pairRow p.1 p.2)) ∧
    file_line_count d DiffMode.SideBySideFull + d.hunks.length =
      file_line_count d DiffMode.SideBySide := by
  constructor
  · unfold rows_full_no_content
    rw [hc, hb]
    simp only [Bool.or_self, if_false, Bool.false_eq_true]
    congr 1
    apply List.flatMap_congr
    intro h hh
    exact full_rows_eq_pair_rows h.lines (hnh h hh)
  · unfold file_line_count
    rw [hc, hb]
    simp only [Bool.or_self, Bool.false_eq_true, if_false]
    unfold full_line_count
    rw [hold, hnew]
    simp only [Option.isNone_none, Bool.and_self, if_true]
    rw [sum_map_one_add]
    omega

/-- C9 witness: the amended statement at the concrete `c9diff`. -/
theorem c9_witness :
    c9diff.old_content = none ∧ c9diff.new_content = none ∧
    c9diff.collapsed = false ∧ c9diff.is_binary = false ∧
    no_header_lines c9diff ∧
    (rows_full_no_content c9diff =
        SbsRow.fileHeader ::
          c9diff.hunks.flatMap (fun h =>
            (pair_lines h.lines).map (fun p => SbsRow.pairRow p.1 p.2)) ∧
      file_line_count c9diff DiffMode.SideBySideFull + c9diff.hunks.length =
        file_line_count c9diff DiffMode.SideBySide) :=
  ⟨rfl, rfl, rfl, rfl, by decide,
    c9_degrades_to_hunk_pairing c9diff rfl rfl rfl rfl (by decide)⟩

/-! ### Order lemmas and Claim C6: folder ordering in the built tree -/

theorem lexLt_irrefl : ∀ a : Chars, lexLt a a = false
  | [] => rfl
  | x :: xs => by simp [lexLt, lexLt_irrefl xs]

theorem lexLt_trans : ∀ {a b c : Chars},
    lexLt a b = true → lexLt b c = true → lexLt a c = true := by
  intro a
  induction a with
  | nil =>
    intro b c hab hbc
    cases c with
    | nil => cases b <;> simp [lexLt] at hab hbc
    | cons z zs => simp [lexLt]
  | cons x xs ih =>
    intro b c hab hbc
    cases b with
    | nil => simp [lexLt] at hab
    | cons y ys =>
      cases c with
      | nil => simp [lexLt] at hbc
      | cons z zs =>
        simp only [lexLt, Bool.or_eq_true, Bool.and_eq_true,
          decide_eq_true_eq] at hab hbc ⊢
        rcases hab with h1 | ⟨he1, h1⟩ <;> rcases hbc with h2 | ⟨he2, h2⟩
        · exact Or.inl (Nat.lt_trans h1 h2)
        · exact Or.inl (he2 ▸ h1)
        · exact Or.inl (he1 ▸ h2)
        · exact Or.inr ⟨he1.trans he2, ih h1 h2⟩

theorem lexLt_connex : ∀ {a b : Chars},
    lexLt a b = false → lexLt b a = false → a = b := by
  intro a
  induction a with
  | nil =>
    intro b hab _
    cases b with
    | nil => rfl
    | cons y ys => simp [lexLt] at hab
  | cons x xs ih =>
    intro b hab hba
    cases b with
    | nil => simp [lexLt] at hba
    | cons y ys =>
      simp only [lexLt, Bool.or_eq_false_iff, Bool.and_eq_false_iff,
        decide_eq_false_iff_not] at hab hba
      obtain ⟨hxy, hab2⟩ := hab
      obtain ⟨hyx, hba2⟩ := hba
      have hxyeq : x = y := by omega
      subst hxyeq
      have h1 : lexLt xs ys = false := by
        rcases hab2 with h | h
        · exact absurd rfl h
        · exact h
      have h2 : lexLt ys xs = false := by
        rcases hba2 with h | h
        · exact absurd rfl h
        · exact h
      rw [ih h1 h2]

theorem lexLt_append : ∀ (p : Chars) (x : Nat) (xs : Chars),
    lexLt p (p ++ x :: xs) = true
  | [], _, _ => rfl
  | a :: as, x, xs => by simp [lexLt, lexLt_append as x xs]

theorem lexLe_total (a b : Chars) : lexLe a b = true ∨ lexLe b a = true := by
  unfold lexLe
  by_cases h1 : lexLt b a = true
  · by_cases h2 : lexLt a b = true
    · exact absurd (lexLt_trans h1 h2) (by simp [lexLt_irrefl])
    · right
      simp [Bool.not_eq_true] at h2
      simp [h2]
  · left
    simp [Bool.not_eq_true] at h1
    simp [h1]

theorem lexLe_trans {a b c : Chars} (hab : lexLe a b = true)
    (hbc : lexLe b c = true) : lexLe a c = true := by
  unfold lexLe at hab hbc ⊢
  simp only [Bool.not_eq_true'] at hab hbc ⊢
  by_cases hlt : lexLt c a = true
  · exfalso
    cases hab2 : lexLt a b with
    | false =>
      have heq : a = b := lexLt_connex hab2 hab
      subst heq
      rw [hlt] at hbc
      exact Bool.false_ne_true hbc.symm
    | true =>
      have := lexLt_trans hlt hab2
      rw [this] at hbc
      exact Bool.false_ne_true hbc.symm
  · simpa [Bool.not_eq_true] using hlt

instance : IsTotal TreeNode nodeLe :=
  ⟨fun a b => lexLe_total a.path b.path⟩

instance : IsTrans TreeNode nodeLe :=
  ⟨fun _ _ _ hab hbc => lexLe_trans hab hbc⟩

theorem lexLt_of_slash_extension {p c : Chars}
    (h : (p ++ [slashC]).isPrefixOf c = true) : lexLt p c = true := by
  rw [ List.isPrefixOf_iff_prefix] at h
  obtain ⟨t, ht⟩ := h
  rw [← ht, List.append_assoc]
  exact lexLt_append p slashC t

/-- C6 counterexample: for the input paths `a/x` and `a.txt`, the built node
list sorted by path is `[a (folder), a.txt (file), a/x (file)]` — the
non-descendant `a.txt` sits between the folder `a` and its descendant `a/x`
(since the dot character orders below the slash), so a folder does not in
general sort immediately before its descendants. -/
theorem c6_counterexample :
    (build_file_tree [c6diffA, c6diffB] []).map (fun n => (n.path, n.is_folder)) =
      [(strOf "a", true), (strOf "a.txt", false), (strOf "a/x", false)] ∧
    strict_desc (strOf "a/x") (strOf "a") = true ∧
    strict_desc (strOf "a.txt") (strOf "a") = false := by
  refine ⟨by decide, by decide, by decide⟩

/-- C6 (amended): in the built tree node list, the path sorting guarantees
that every folder node sorts strictly before all of its descendants (no
descendant ever precedes an ancestor), though not necessarily immediately
before them: the list is sorted by `lexLe` on paths, and no node precedes a
later node of which it is a strict descendant. -/
theorem c6_folder_before_descendants (diffs : List FileDiff)
    (expanded_folders : List (Chars × Bool)) :
    List.Sorted nodeLe (build_file_tree diffs expanded_folders) ∧
    (build_file_tree diffs expanded_folders).Pairwise
      (fun a b => strict_desc a.path b.path = false) := by
  have hsorted : List.Sorted nodeLe (build_file_tree diffs expanded_folders) := by
    unfold build_file_tree
    split
    · exact List.sorted_nil
    · exact List.sorted_insertionSort nodeLe _
  refine ⟨hsorted, ?_⟩
  refine hsorted.imp ?_
  intro a b hab
  by_contra hdesc
  rw [Bool.not_eq_false] at hdesc
  have hlt : lexLt b.path a.path = true := lexLt_of_slash_extension hdesc
  unfold nodeLe lexLe at hab
  rw [hlt] at hab
  exact Bool.false_ne_true hab

/-! ### Claim C7: flattening suppresses exactly descendants of collapsed folders -/

theorem strictly_under_self_false (p : Chars) :
    strictly_under (p ++ [slashC]) p = false := by
  unfold strictly_under
  cases hpre : (p ++ [slashC]).isPrefixOf p with
  | false => rfl
  | true =>
    exfalso
    rw [ List.isPrefixOf_iff_prefix] at hpre
    have := hpre.length_le
    simp at this

theorem strictly_under_trans {q xp np : Chars}
    (h1 : strictly_under q xp = true)
    (h2 : strictly_under (xp ++ [slashC]) np = true) :
    strictly_under q np = true := by
  unfold strictly_under at h1 h2 ⊢
  rw [Bool.and_eq_true, List.isPrefixOf_iff_prefix] at h1 h2
  obtain ⟨hq, _⟩ := h1
  obtain ⟨hx, _⟩ := h2
  have hqn : q <+: np := hq.trans ((List.prefix_append xp [slashC]).trans hx)
  have hlen : q.length < np.length := by
    have h1l := hq.length_le
    have h2l := hx.length_le
    simp at h2l
    omega
  rw [Bool.and_eq_true, List.isPrefixOf_iff_prefix]
  refine ⟨hqn, ?_⟩
  simp only [Bool.not_eq_eq_eq_not, Bool.not_true, beq_eq_false_iff_ne, ne_eq]
  intro heq
  rw [heq] at hlen
  omega

theorem flatten_aux_eq (nodes : List TreeNode) : ∀ (prefixes : List Chars),
    nodes.Pairwise (fun a b =>
      ¬(b.is_folder = true ∧ b.expanded = false ∧
        strictly_under (b.path ++ [slashC]) a.path = true)) →
    flatten_aux prefixes nodes =
      nodes.filter (fun n =>
        !(prefixes.any (fun q => strictly_under q n.path)) &&
          !(hidden_by nodes n)) := by
  induction nodes with
  | nil => intro prefixes _; rfl
  | cons x rest ih =>
    intro prefixes hord
    rw [List.pairwise_cons] at hord
    obtain ⟨hx, hrest⟩ := hord
    have hhx : hidden_by (x :: rest) x = false := by
      unfold hidden_by
      rw [List.any_cons]
      have h1 : (x.is_folder && !x.expanded &&
          strictly_under (x.path ++ [slashC]) x.path) = false := by
        rw [strictly_under_self_false, Bool.and_false]
      have h2 : rest.any (fun f => f.is_folder && !f.expanded &&
          strictly_under (f.path ++ [slashC]) x.path) = false := by
        rw [List.any_eq_false]
        intro f hf
        have hnf := hx f hf
        simp only [Bool.and_eq_true, Bool.not_eq_eq_eq_not, Bool.not_true,
          not_and]
        intro hfe hup
        exact absurd ⟨hfe.1, by simpa using hfe.2, hup⟩ hnf
      rw [h1, h2, Bool.or_self]
    have hxhides : ∀ n : TreeNode, (x.is_folder && !x.expanded &&
        strictly_under (x.path ++ [slashC]) n.path) = true →
        strictly_under (x.path ++ [slashC]) n.path = true := by
      intro n h
      rw [Bool.and_eq_true] at h
      exact h.2
    cases hskip : prefixes.any (fun q => strictly_under q x.path) with
    | true =>
      -- x is suppressed by an already-active prefix
      obtain ⟨q, hq, hqx⟩ := List.any_eq_true.mp hskip
      have step1 : flatten_aux prefixes (x :: rest) = flatten_aux prefixes rest := by
        rw [flatten_aux]
        rw [if_pos hskip]
      have step2 : rest.filter (fun n =>
          !(prefixes.any (fun q => strictly_under q n.path)) &&
            !(hidden_by rest n)) =
          rest.filter (fun n =>
            !(prefixes.any (fun q => strictly_under q n.path)) &&
              !(hidden_by (x :: rest) n)) := by
        apply List.filter_congr
        intro n hn
        cases hA : prefixes.any (fun q => strictly_under q n.path) with
        | true => rw [Bool.not_true, Bool.false_and, Bool.false_and]
        | false =>
          have hxn : (x.is_folder && !x.expanded &&
              strictly_under (x.path ++ [slashC]) n.path) = false := by
            cases hxh : (x.is_folder && !x.expanded &&
                strictly_under (x.path ++ [slashC]) n.path) with
            | false => rfl
            | true =>
              exfalso
              have hup := hxhides n hxh
              have := strictly_under_trans hqx hup
              have hAfalse := List.any_eq_false.mp hA q hq
              exact absurd this (by simpa using hAfalse)
          unfold hidden_by
          rw [List.any_cons, hxn, Bool.false_or]
      have step3 : (x :: rest).filter (fun n =>
          !(prefixes.any (fun q => strictly_under q n.path)) &&
            !(hidden_by (x :: rest) n)) =
          rest.filter (fun n =>
            !(prefixes.any (fun q => strictly_under q n.path)) &&
              !(hidden_by (x :: rest) n)) := by
        rw [List.filter_cons_of_neg]
        simp [hskip]
      rw [step1, ih prefixes hrest, step2, step3]
    | false =>
      -- x is emitted
      have step1 : flatten_aux prefixes (x :: rest) =
          x :: flatten_aux
            (if x.is_folder && !x.expanded then (x.path ++ [slashC]) :: prefixes
             else prefixes) rest := by
        rw [flatten_aux]
        rw [if_neg (by simp [hskip])]
      have hxpred : (!(prefixes.any (fun q => strictly_under q x.path)) &&
          !(hidden_by (x :: rest) x)) = true := by
        rw [hskip, hhx]
        rfl
      have step4 : (x :: rest).filter (fun n =>
          !(prefixes.any (fun q => strictly_under q n.path)) &&
            !(hidden_by (x :: rest) n)) =
          x :: rest.filter (fun n =>
            !(prefixes.any (fun q => strictly_under q n.path)) &&
              !(hidden_by (x :: rest) n)) := by
        rw [List.filter_cons_of_pos]
        simp only [hskip, hhx]
        rfl
      rw [step1, step4]
      congr 1
      cases hcf : (x.is_folder && !x.expanded) with
      | true =>
        rw [if_pos rfl, ih _ hrest]
        apply List.filter_congr
        intro n hn
        unfold hidden_by
        rw [List.any_cons, List.any_cons, hcf, Bool.true_and]
        cases strictly_under (x.path ++ [slashC]) n.path <;>
          cases prefixes.any (fun q => strictly_under q n.path) <;>
          cases rest.any (fun f => f.is_folder && !f.expanded &&
            strictly_under (f.path ++ [slashC]) n.path) <;> rfl
      | false =>
        rw [if_neg (by simp), ih _ hrest]
        apply List.filter_congr
        intro n hn
        unfold hidden_by
        rw [List.any_cons, hcf, Bool.false_and, Bool.false_or]

/-- C7: for every node list sorted by path and every collapse state recorded
in the nodes, flattening emits exactly the nodes that are not strict
descendants of some collapsed folder node: collapsed folders are themselves
emitted, and exactly their strict descendants (paths extending the folder
path plus a slash) are suppressed. -/
theorem c7_flatten_suppresses_descendants (nodes : List TreeNode)
    (hs : List.Sorted nodeLe nodes) :
    flatten_tree nodes = nodes.filter (fun n => !(hidden_by nodes n)) := by
  have hord : nodes.Pairwise (fun a b =>
      ¬(b.is_folder = true ∧ b.expanded = false ∧
        strictly_under (b.path ++ [slashC]) a.path = true)) := by
    refine hs.imp ?_
    intro a b hab
    rintro ⟨-, -, hup⟩
    unfold strictly_under at hup
    rw [Bool.and_eq_true] at hup
    have hlt : lexLt b.path a.path = true := lexLt_of_slash_extension hup.1
    unfold nodeLe lexLe at hab
    rw [hlt] at hab
    exact Bool.false_ne_true hab
  have := flatten_aux_eq nodes [] hord
  simpa [flatten_tree] using this

/-- C7 witness: the scenario of a folder `dir` containing exactly
`dir/x.txt` and `dir/y.txt`.  Collapsing `dir` leaves exactly the
`dir` row (removing exactly the 2 descendant rows), as the characterization
theorem predicts. -/
theorem c7_witness :
    List.Sorted nodeLe [c7dir, c7x, c7y] ∧
    flatten_tree [c7dir, c7x, c7y] =
      [c7dir, c7x, c7y].filter (fun n => !(hidden_by [c7dir, c7x, c7y] n)) ∧
    flatten_tree [c7dir, c7x, c7y] = [c7dir] ∧
    (flatten_tree [c7dirOpen, c7x, c7y]).length =
      (flatten_tree [c7dir, c7x, c7y]).length + 2 :=
  ⟨by decide, c7_flatten_suppresses_descendants [c7dir, c7x, c7y] (by decide),
    by decide, by decide⟩

/-! ### Claim C8: the sidebar cursor/scroll invariant -/

theorem ensure_visible_invariant (visible total c sc : Nat)
    (hv : 0 < visible) :
    ensure_sidebar_cursor_visible visible total ⟨c, sc⟩ =
      ⟨c, min (if c < sc then c
               else if sc + visible ≤ c then c + 1 - visible
               else sc) (total - visible)⟩ := by
  unfold ensure_sidebar_cursor_visible
  rw [if_neg (by omega)]

theorem ensure_visible_bounds (visible total c sc : Nat)
    (hv : 0 < visible) (ht : 0 < total) (hc : c ≤ total - 1) :
    (ensure_sidebar_cursor_visible visible total ⟨c, sc⟩).file_cursor = c ∧
    (ensure_sidebar_cursor_visible visible total ⟨c, sc⟩).sidebar_scroll ≤ c ∧
    c ≤ (ensure_sidebar_cursor_visible visible total ⟨c, sc⟩).sidebar_scroll +
      visible - 1 := by
  rw [ensure_visible_invariant visible total c sc hv]
  refine ⟨rfl, ?_, ?_⟩ <;> dsimp only <;> split_ifs <;> omega

/-- C8: after a sidebar cursor mutation (`move_sidebar_cursor` or
`set_sidebar_cursor`) on a non-empty flattened tree with positive visible
height, the invariant `scroll ≤ cursor ≤ scroll + visible − 1` holds, and it
is restored by adjusting the scroll only: the resulting cursor is the
clamped cursor target, independent of the previous scroll. -/
theorem c8_sidebar_invariant (total visible : Nat) (delta : Int)
    (index : Nat) (s : SidebarState) (ht : 0 < total) (hv : 0 < visible) :
    ((move_sidebar_cursor total visible delta s).sidebar_scroll ≤
        (move_sidebar_cursor total visible delta s).file_cursor ∧
      (move_sidebar_cursor total visible delta s).file_cursor ≤
        (move_sidebar_cursor total visible delta s).sidebar_scroll +
          visible - 1 ∧
      (move_sidebar_cursor total visible delta s).file_cursor =
        min (apply_delta s.file_cursor delta) (total - 1)) ∧
    ((set_sidebar_cursor total visible index s).sidebar_scroll ≤
        (set_sidebar_cursor total visible index s).file_cursor ∧
      (set_sidebar_cursor total visible index s).file_cursor ≤
        (set_sidebar_cursor total visible index s).sidebar_scroll +
          visible - 1 ∧
      (set_sidebar_cursor total visible index s).file_cursor =
        min index (total - 1)) := by
  have htne : ¬ total = 0 := by omega
  constructor
  · have h := ensure_visible_bounds visible total
      (min (apply_delta s.file_cursor delta) (total - 1)) s.sidebar_scroll
      hv ht (by omega)
    unfold move_sidebar_cursor
    rw [if_neg htne]
    refine ⟨?_, ?_, h.1⟩
    · rw [h.1]
      exact h.2.1
    · rw [h.1]
      exact h.2.2
  · have h := ensure_visible_bounds visible total
      (min index (total - 1)) s.sidebar_scroll hv ht (by omega)
    unfold set_sidebar_cursor
    rw [if_neg htne]
    refine ⟨?_, ?_, h.1⟩
    · rw [h.1]
      exact h.2.1
    · rw [h.1]
      exact h.2.2

/-- C8 witness: the scenario — cursor at row 0, scroll 0, a 50-row tree with
viewport height 10; moving down 12 rows yields cursor 12 and scroll 3, and
the invariant holds. -/
theorem c8_witness :
    0 < 50 ∧ 0 < 10 ∧
    (((move_sidebar_cursor 50 10 12 ⟨0, 0⟩).sidebar_scroll ≤
        (move_sidebar_cursor 50 10 12 ⟨0, 0⟩).file_cursor ∧
      (move_sidebar_cursor 50 10 12 ⟨0, 0⟩).file_cursor ≤
        (move_sidebar_cursor 50 10 12 ⟨0, 0⟩).sidebar_scroll + 10 - 1 ∧
      (move_sidebar_cursor 50 10 12 ⟨0, 0⟩).file_cursor =
        min (apply_delta 0 12) (50 - 1)) ∧
     ((set_sidebar_cursor 50 10 7 ⟨0, 0⟩).sidebar_scroll ≤
        (set_sidebar_cursor 50 10 7 ⟨0, 0⟩).file_cursor ∧
      (set_sidebar_cursor 50 10 7 ⟨0, 0⟩).file_cursor ≤
        (set_sidebar_cursor 50 10 7 ⟨0, 0⟩).sidebar_scroll + 10 - 1 ∧
      (set_sidebar_cursor 50 10 7 ⟨0, 0⟩).file_cursor = min 7 (50 - 1))) ∧
    move_sidebar_cursor 50 10 12 ⟨0, 0⟩ = ⟨12, 3⟩ :=
  ⟨by decide, by decide,
    c8_sidebar_invariant 50 10 12 7 ⟨0, 0⟩ (by decide) (by decide),
    by decide⟩

/-! ### Claim C10: the hidden-file classification and the visible diff set -/

theorem starts_with_dot_iff (l : Chars) :
    starts_with_dot l = true ↔ ∃ r, l = dotC :: r := by
  cases l with
  | nil => simp [starts_with_dot]
  | cons c r =>
    simp only [starts_with_dot, beq_iff_eq]
    constructor
    · intro h
      exact ⟨r, by rw [h]⟩
    · rintro ⟨r2, hr⟩
      injection hr

/-- C10: for every path, `is_hidden_file` returns true exactly when some
slash-separated component starts with a dot or the final component is one of
the eight lock-file names; and `update_visible_diffs` filters exactly the
hidden files from the visible diff set (an index is visible iff it denotes a
diff that is not hidden, or `show_hidden` is set). -/
theorem c10_hidden_file_classification :
    (∀ path : Chars, is_hidden_file path = true ↔ HiddenSpec path) ∧
    (∀ (show_hidden : Bool) (diffs : List FileDiff) (i : Nat),
      i ∈ update_visible_diffs show_hidden diffs ↔
        ∃ d, diffs[i]? = some d ∧
          (show_hidden = true ∨ is_hidden_file d.path = false)) := by
  constructor
  · intro path
    unfold is_hidden_file HiddenSpec
    cases hdot : (splitSlash path).any starts_with_dot with
    | true =>
      rw [if_pos rfl]
      refine ⟨fun _ => Or.inl ?_, fun _ => rfl⟩
      obtain ⟨comp, hc, hsd⟩ := List.any_eq_true.mp hdot
      exact ⟨comp, hc, (starts_with_dot_iff comp).mp hsd⟩
    | false =>
      rw [if_neg (by simp [hdot])]
      have hnodot : ¬ ∃ comp ∈ splitSlash path, ∃ r, comp = dotC :: r := by
        rintro ⟨comp, hc, hr⟩
        have := List.any_eq_false.mp hdot comp hc
        rw [starts_with_dot_iff comp] at this
        exact this hr
      constructor
      · intro h
        right
        obtain ⟨p, hp, hbeq⟩ := List.any_eq_true.mp h
        rw [beq_iff_eq] at hbeq
        rw [hbeq]
        exact hp
      · rintro (h | h)
        · exact absurd h hnodot
        · exact List.any_eq_true.mpr ⟨_, h, beq_self_eq_true _⟩
  · intro show_hidden diffs i
    unfold update_visible_diffs
    rw [List.mem_map]
    constructor
    · rintro ⟨p, hp, rfl⟩
      rw [List.mem_filter] at hp
      obtain ⟨hpe, hpred⟩ := hp
      rw [List.mk_mem_enum_iff_getElem?] at hpe
      refine ⟨p.2, hpe, ?_⟩
      rcases Bool.or_eq_true _ _ |>.mp hpred with h | h
      · exact Or.inl h
      · exact Or.inr (by simpa using h)
    · rintro ⟨d, hd, hcond⟩
      refine ⟨(i, d), ?_, rfl⟩
      rw [List.mem_filter, List.mk_mem_enum_iff_getElem?]
      refine ⟨hd, ?_⟩
      rcases hcond with h | h
      · simp [h]
      · simp [h]

end GV
